import Mathlib

/-!
Verification development for the jobhunt repository.

The Python sources are shallowly embedded over `List Char` / `String`:

* `scraper.py`: `_extract_years_required` (three regex pattern classes, run
  with `re.finditer` semantics: leftmost, non-overlapping matches, scanning
  position by position), `_is_senior_role`, `_is_junior_role`,
  `_passes_experience_filter`, `_deduplicate` (pandas `drop_duplicates`
  with `keep="first"` on `job_url`, then on `(company, title)`).
* `tracker.py`: `filter_new_jobs`, `log_job_to_csv` (CSV upsert),
  `create_notion_page` (modelled against an abstract remote outcome; the
  whole body is one `try/except` returning `None` on any failure) and
  `track_job`.
* `generator.py`: the delimiter post-processing of `tailor_resume`.
* `compiler.py`: the control flow of `compile_latex_to_pdf`, modelled
  against an abstract environment describing the file system and the two
  `pdflatex` subprocess runs.

Character classes: Python `\d` and `\s` are modelled by their ASCII
subsets (the repository only ever feeds ASCII keywords and the claims only
involve ASCII text); `str.lower` is modelled by `Char.toLower` charwise.
-/

/-! ## Character classes and numeric value of a digit group (`scraper.py`) -/

/-- Python regex `\d` (ASCII digits). -/
def isDig (c : Char) : Bool := c.isDigit

/-- Python regex `\s` (ASCII whitespace characters). -/
def isSp (c : Char) : Bool :=
  c == ' ' || c == '\t' || c == '\n' || c == '\r' || c == '\x0b' || c == '\x0c'

/-- `int()` applied to a matched digit group. -/
def digitsVal (ds : List Char) : Nat :=
  ds.foldl (fun acc c => 10 * acc + (c.toNat - 48)) 0

/-! ## The three patterns of `_extract_years_required`

Pattern 1: `(\d+)\+?\s*(?:to|-)\s*(\d+)\s*years?`  (range, e.g. "3-5 years")
Pattern 2: `(\d+)\+\s*years?`                       (e.g. "5+ years")
Pattern 3: `(\d+)\s*years?\s*(?:of)?\s*experience`  (e.g. "5 years of experience")

All are compiled with `re.IGNORECASE`.  Each matcher below anchors the
pattern at the head of the list and returns the `max` of the integer
groups of the match (the code's `found = max(groups)`) together with the
remaining text after the match.  Greedy matching without backtracking is
faithful here: every `\d+`/`\s*` boundary in these patterns is forced
(the following token never accepts a digit resp. a space), and the
alternation `to|-` has disjoint first characters. -/

/-- The optional `\+?` after the first group of pattern 1. -/
def dropPlus : List Char → List Char
  | [] => []
  | c :: t => if c = '+' then t else c :: t

/-- The alternation `(?:to|-)` of pattern 1, case-insensitive. -/
def sepTok : List Char → Option (List Char)
  | [] => none
  | c :: t =>
    if c.toLower = 't' then
      match t with
      | c2 :: t2 => if c2.toLower = 'o' then some t2 else none
      | [] => none
    else if c = '-' then some t
    else none

/-- The literal `years?`, case-insensitive, with the greedy optional `s`. -/
def yearTok : List Char → Option (List Char)
  | y :: e :: a :: r :: t =>
    if y.toLower = 'y' && e.toLower = 'e' && a.toLower = 'a' && r.toLower = 'r' then
      match t with
      | s :: t2 => if s.toLower = 's' then some t2 else some (s :: t2)
      | [] => some []
    else none
  | _ => none

/-- The greedy optional `(?:of)?` of pattern 3, case-insensitive. -/
def ofTok : List Char → List Char
  | o :: f :: t => if o.toLower = 'o' && f.toLower = 'f' then t else o :: f :: t
  | l => l

/-- The literal `experience` of pattern 3, case-insensitive. -/
def expTok : List Char → Option (List Char)
  | e1 :: x :: p :: e2 :: r :: i :: e3 :: n :: c :: e4 :: t =>
    if e1.toLower = 'e' && x.toLower = 'x' && p.toLower = 'p' && e2.toLower = 'e' &&
       r.toLower = 'r' && i.toLower = 'i' && e3.toLower = 'e' && n.toLower = 'n' &&
       c.toLower = 'c' && e4.toLower = 'e' then some t else none
  | _ => none

/-- Pattern 1 anchored at the head: `(\d+)\+?\s*(?:to|-)\s*(\d+)\s*years?`.
Returns `max` of the two groups and the text after the match. -/
def matchAt1 (cs : List Char) : Option (Nat × List Char) :=
  let d1 := cs.takeWhile isDig
  if d1.isEmpty then none else
  match sepTok ((dropPlus (cs.dropWhile isDig)).dropWhile isSp) with
  | none => none
  | some t2 =>
    let t2' := t2.dropWhile isSp
    let d2 := t2'.takeWhile isDig
    if d2.isEmpty then none else
    match yearTok ((t2'.dropWhile isDig).dropWhile isSp) with
    | none => none
    | some rest => some (max (digitsVal d1) (digitsVal d2), rest)

/-- Pattern 2 anchored at the head: `(\d+)\+\s*years?`. -/
def matchAt2 (cs : List Char) : Option (Nat × List Char) :=
  let d := cs.takeWhile isDig
  if d.isEmpty then none else
  match cs.dropWhile isDig with
  | [] => none
  | c :: t1 =>
    if c = '+' then
      match yearTok (t1.dropWhile isSp) with
      | none => none
      | some rest => some (digitsVal d, rest)
    else none

/-- Pattern 3 anchored at the head: `(\d+)\s*years?\s*(?:of)?\s*experience`. -/
def matchAt3 (cs : List Char) : Option (Nat × List Char) :=
  let d := cs.takeWhile isDig
  if d.isEmpty then none else
  match yearTok ((cs.dropWhile isDig).dropWhile isSp) with
  | none => none
  | some t1 =>
    match expTok ((ofTok (t1.dropWhile isSp)).dropWhile isSp) with
    | none => none
    | some rest => some (digitsVal d, rest)

/-- `re.finditer` over one pattern: scan left to right; at each position try
the anchored matcher; on a match record its group maximum and continue after
the match (matches never overlap), otherwise advance one character.  Each of
the matchers above consumes at least one character on success, so fuel
`cs.length + 1` (see `findIterVals`) is never exhausted. -/
def scanFuel (f : List Char → Option (Nat × List Char)) : Nat → List Char → List Nat
  | 0, _ => []
  | fuel + 1, cs =>
    match f cs with
    | some (v, rest) => v :: scanFuel f fuel rest
    | none =>
      match cs with
      | [] => []
      | _ :: t => scanFuel f fuel t

/-- The list of `max(groups)` values of all `re.finditer` matches of one
pattern in `cs`. -/
def findIterVals (f : List Char → Option (Nat × List Char)) (cs : List Char) : List Nat :=
  scanFuel f (cs.length + 1) cs

/-- All match values of the three patterns, in the order the code visits
them (`for pat in patterns: for match in re.finditer(pat, text, ...)`). -/
def matchValues (t : List Char) : List Nat :=
  findIterVals matchAt1 t ++ findIterVals matchAt2 t ++ findIterVals matchAt3 t

/-- The loop body of `_extract_years_required`:
`if max_years is None or found > max_years: max_years = found`. -/
def maxStep (maxYears : Option Nat) (found : Nat) : Option Nat :=
  match maxYears with
  | none => some found
  | some m => if found > m then some found else some m

/-- `_extract_years_required`: `None` for empty text, otherwise the running
maximum `max_years` over all matches of all three patterns. -/
def extract_years_required (t : List Char) : Option Nat :=
  if t.isEmpty then none
  else (matchValues t).foldl maxStep none

/-! ## Keyword filters (`scraper.py` + `config.py`) -/

/-- `str.lower`, charwise (ASCII). -/
def lowerL (l : List Char) : List Char := l.map Char.toLower

/-- `SENIOR_KEYWORDS` from `config.py`. -/
def SENIOR_KEYWORDS : List (List Char) :=
  ["senior".toList, "sr.".toList, "lead".toList, "principal".toList, "staff".toList,
   "architect".toList, "head of".toList, "director".toList, "manager".toList,
   "10+ years".toList, "8+ years".toList, "7+ years".toList]

/-- `JUNIOR_KEYWORDS` from `config.py`. -/
def JUNIOR_KEYWORDS : List (List Char) :=
  ["junior".toList, "intermediate".toList, "mid-level".toList, "associate".toList,
   "entry".toList, "0-3 years".toList, "1-3 years".toList, "2-4 years".toList,
   "2-5 years".toList, "3-5 years".toList, "new grad".toList]

/-- `combined = f"{title} {description}".lower()`. -/
def combinedText (title description : List Char) : List Char :=
  lowerL (title ++ ' ' :: description)

/-- Python `sub in s` for strings: `sub` occurs contiguously in `s`. -/
def containsSub (pat : List Char) : List Char → Bool
  | [] => pat.isPrefixOf []
  | c :: t => pat.isPrefixOf (c :: t) || containsSub pat t

/-- `any(kw in combined for kw in kws)`: the keyword is compared verbatim
(the code lowercases only the combined posting text, not the keyword). -/
def anyKeywordIn (kws : List (List Char)) (title description : List Char) : Bool :=
  kws.any (fun kw => containsSub kw (combinedText title description))

/-- `_is_senior_role`. -/
def is_senior_role (title description : List Char) : Bool :=
  anyKeywordIn SENIOR_KEYWORDS title description

/-- `_is_junior_role`. -/
def is_junior_role (title description : List Char) : Bool :=
  anyKeywordIn JUNIOR_KEYWORDS title description

/-- `MAX_YEARS_EXPERIENCE` from `config.py`. -/
def MAX_YEARS_EXPERIENCE : Nat := 5

/-- `_passes_experience_filter`: reject senior roles; else reject when the
extracted years exceed the maximum, unless a junior keyword overrides. -/
def passes_experience_filter (title description : List Char) : Bool :=
  if is_senior_role title description then false
  else
    match extract_years_required description with
    | some years =>
      if years > MAX_YEARS_EXPERIENCE then
        if is_junior_role title description then true else false
      else true
    | none => true

/-! ## Deduplication (`scraper.py`) and tracker store (`tracker.py`) -/

/-- One DataFrame row of scraped postings; `other` stands for the remaining
columns, which `_deduplicate` carries along untouched. -/
structure Posting where
  job_url : String
  company : String
  title : String
  other : String
deriving DecidableEq

/-- pandas `drop_duplicates(subset=..., keep="first")`: keep a row iff its
key has not been seen on an earlier row; order is preserved. -/
def dedupBy {κ : Type} [DecidableEq κ] (key : Posting → κ) : List κ → List Posting → List Posting
  | _, [] => []
  | seen, x :: xs =>
    if key x ∈ seen then dedupBy key seen xs
    else x :: dedupBy key (key x :: seen) xs

/-- `_deduplicate`: first drop duplicate `job_url`s, then drop duplicate
`(company, title)` pairs, keeping first occurrences. -/
def deduplicate (postings : List Posting) : List Posting :=
  dedupBy (fun p => (p.company, p.title)) [] (dedupBy (fun p => p.job_url) [] postings)

/-- `filter_new_jobs`: keep the postings whose URL is not in the tracked
set (`jobs_df[~jobs_df["job_url"].isin(tracked_urls)]`). -/
def filter_new_jobs (jobs : List Posting) (trackedUrls : List String) : List Posting :=
  jobs.filter (fun j => !(trackedUrls.contains j.job_url))

/-- A job dict as consumed by `log_job_to_csv`.  Fields read through
`job.get(key, "")` are plain strings; `job_url` is read by `job.get("job_url")`
(may be absent) and `scraped_at` defaults to the current timestamp. -/
structure Job where
  job_url : Option String
  title : String
  company : String
  location : String
  site : String
  date_posted : String
  scraped_at : Option String

/-- One row of the CSV tracker (`CSV_COLUMNS`). -/
structure Row where
  job_url : String
  title : String
  company : String
  location : String
  site : String
  date_posted : String
  scraped_at : String
  applied_at : String
  status : String
  resume_path : String
  cover_letter_path : String
  notion_page_id : String
  notes : String
deriving DecidableEq

/-- The in-place field updates of the existing-URL branch of
`log_job_to_csv`; `notion_page_id` is only overwritten when the supplied
value is truthy (a non-empty string). -/
def updatedRow (r : Row) (status resumePath coverLetterPath notionPageId : String) : Row :=
  { r with
    status := status
    resume_path := resumePath
    cover_letter_path := coverLetterPath
    notion_page_id := if notionPageId = "" then r.notion_page_id else notionPageId }

/-- Update the first row whose `job_url` equals `u`
(`df[df["job_url"] == job["job_url"]].index[0]`). -/
def updateFirstRow (u : String) (status resumePath coverLetterPath notionPageId : String) :
    List Row → List Row
  | [] => []
  | r :: rs =>
    if r.job_url = u then updatedRow r status resumePath coverLetterPath notionPageId :: rs
    else r :: updateFirstRow u status resumePath coverLetterPath notionPageId rs

/-- The appended record of the new-URL branch of `log_job_to_csv`;
`now` models `datetime.now().isoformat()`. -/
def newRowFor (job : Job) (status resumePath coverLetterPath notionPageId now : String) : Row :=
  { job_url := job.job_url.getD ""
    title := job.title
    company := job.company
    location := job.location
    site := job.site
    date_posted := job.date_posted
    scraped_at := job.scraped_at.getD now
    applied_at := ""
    status := status
    resume_path := resumePath
    cover_letter_path := coverLetterPath
    notion_page_id := notionPageId
    notes := "" }

/-- `log_job_to_csv`: update the existing row in place when the job's URL
is already present, otherwise append one new record. -/
def log_job_to_csv (job : Job) (status resumePath coverLetterPath notionPageId now : String)
    (rows : List Row) : List Row :=
  match job.job_url with
  | some u =>
    if rows.any (fun r => r.job_url == u) then
      updateFirstRow u status resumePath coverLetterPath notionPageId rows
    else rows ++ [newRowFor job status resumePath coverLetterPath notionPageId now]
  | none => rows ++ [newRowFor job status resumePath coverLetterPath notionPageId now]

/-- Outcome of the remote Notion interaction inside the `try` block of
`create_notion_page`: either the created page's id, or any raised
exception. -/
inductive RemoteOutcome where
  | ok (pageId : String)
  | failure

/-- `create_notion_page`: the whole body is wrapped in `try/except`, so the
function is total — a page id on success and `None` on any failure. -/
def create_notion_page (outcome : RemoteOutcome) : Option String :=
  match outcome with
  | .ok pageId => some pageId
  | .failure => none

/-- `track_job`: call the remote sink first, then the local CSV upsert with
`notion_page_id or ""`; returns the remote id. -/
def track_job (outcome : RemoteOutcome) (job : Job)
    (status resumePath coverLetterPath now : String) (rows : List Row) :
    Option String × List Row :=
  let notionPageId := create_notion_page outcome
  (notionPageId,
   log_job_to_csv job status resumePath coverLetterPath (notionPageId.getD "") now rows)

/-! ## Resume post-processing (`generator.py`) -/

/-- The delimiter line between the LaTeX part and the keyword report. -/
def delimiterLit : List Char := "===KEYWORD_REPORT===".toList

/-- The fixed report used when no delimiter is present. -/
def placeholderReport : List Char := "Keyword report not generated.".toList

/-- `text.split(d, 1)` restricted to the delimiter-present case: split at
the first occurrence of `d`, or `none` when `d` does not occur. -/
def splitFirst (d : List Char) : List Char → Option (List Char × List Char)
  | [] => if d.isPrefixOf [] then some ([], ([] : List Char).drop d.length) else none
  | c :: t =>
    if d.isPrefixOf (c :: t) then some ([], (c :: t).drop d.length)
    else
      match splitFirst d t with
      | some p => some (c :: p.1, p.2)
      | none => none

/-- Python `str.strip()`: remove leading and trailing whitespace. -/
def stripL (l : List Char) : List Char :=
  ((l.dropWhile isSp).reverse.dropWhile isSp).reverse

/-- The post-processing of the generation-service response in
`tailor_resume`: split on the first delimiter occurrence into
`(tex_part, kw_part)`; when the delimiter is absent the whole response is
the tex part and the placeholder report is used; both parts are stripped. -/
def tailor_resume_split (fullOutput : List Char) : List Char × List Char :=
  match splitFirst delimiterLit fullOutput with
  | some (texPart, kwPart) => (stripL texPart, stripL kwPart)
  | none => (stripL fullOutput, stripL placeholderReport)

/-! ## LaTeX compilation control flow (`compiler.py`) -/

/-- Outcome of one `subprocess.run` of `pdflatex`: it returned (with some
return code — a non-zero code only logs a warning), it hit the 60s timeout
(`subprocess.TimeoutExpired`), or `pdflatex` was not found
(`FileNotFoundError`). -/
inductive RunOutcome where
  | completed (returncode : Int)
  | timedOut
  | toolMissing

/-- The environment `compile_latex_to_pdf` runs against: whether the input
`.tex` file exists, the outcome of each of the two `pdflatex` runs, whether
a PDF is present afterwards, and which auxiliary files exist. -/
structure LatexEnv where
  texExists : Bool
  run1 : RunOutcome
  run2 : RunOutcome
  pdfProduced : Bool
  auxExists : String → Bool

/-- Observable result of `compile_latex_to_pdf`: its return value, how many
times `pdflatex` was invoked, and which auxiliary files it unlinked. -/
structure CompileResult where
  output : String
  invocations : Nat
  deletedAux : List String
deriving DecidableEq

/-- `work_dir / (tex_path.stem + ".pdf")`: replace the final extension of
the source path by `.pdf`. -/
def pdfFor (texPath : String) : String :=
  let rev := texPath.toList.reverse
  let afterDot := rev.dropWhile (fun c => !(c == '.' || c == '/'))
  match afterDot with
  | '.' :: pre => String.mk (pre.reverse ++ ".pdf".toList)
  | _ => String.mk (texPath.toList ++ ".pdf".toList)

/-- `compile_latex_to_pdf`: missing input returns `""` with no invocation;
a timeout or missing tool on either run returns `""`; otherwise, if the PDF
exists it deletes the existing `.aux`/`.log`/`.out` files and returns the
PDF path, else returns `""`. -/
def compile_latex_to_pdf (env : LatexEnv) (texPath : String) : CompileResult :=
  if !env.texExists then ⟨"", 0, []⟩
  else
    match env.run1 with
    | .timedOut => ⟨"", 1, []⟩
    | .toolMissing => ⟨"", 1, []⟩
    | .completed _ =>
      match env.run2 with
      | .timedOut => ⟨"", 2, []⟩
      | .toolMissing => ⟨"", 2, []⟩
      | .completed _ =>
        if env.pdfProduced then
          ⟨pdfFor texPath, 2, [".aux", ".log", ".out"].filter (fun e => env.auxExists e)⟩
        else ⟨"", 2, []⟩

/-! ## Auxiliary predicates and spec-side constants used by the theorems -/

/-- Characters that can occur between the two digit groups of pattern 1
(the `\+?\s*(?:to|-)\s*` region). -/
def sepClass (c : Char) : Prop :=
  c = '+' ∨ isSp c = true ∨ c.toLower = 't' ∨ c.toLower = 'o' ∨ c = '-'

/-- Characters that can occur in a `\s*years?` region. -/
def yearClass (c : Char) : Prop :=
  isSp c = true ∨ c.toLower = 'y' ∨ c.toLower = 'e' ∨ c.toLower = 'a' ∨
  c.toLower = 'r' ∨ c.toLower = 's'

instance (c : Char) : Decidable (sepClass c) := by unfold sepClass; infer_instance

instance (c : Char) : Decidable (yearClass c) := by unfold yearClass; infer_instance

/-- Characters that can occur after the first group of pattern 2
(the `\+\s*years?` region). -/
def plusYearClass (c : Char) : Prop := c = '+' ∨ yearClass c

instance (c : Char) : Decidable (plusYearClass c) := by unfold plusYearClass; infer_instance

/-- The literal text `3-5 years`. -/
def sub35 : List Char := ['3', '-', '5', ' ', 'y', 'e', 'a', 'r', 's']

/-- The literal text `5+ years`. -/
def sub5p : List Char := ['5', '+', ' ', 'y', 'e', 'a', 'r', 's']

/-- `cs` contains the contiguous subsequence `b`. -/
def containsSeq (b cs : List Char) : Prop := ∃ a s2, cs = a ++ (b ++ s2)

/-- Spec-side notion for C7: the keyword occurs case-insensitively as a
substring of the text (lowering both sides charwise). -/
def appearsCI (kw text : List Char) : Bool := containsSub (lowerL kw) (lowerL text)

/-! ## Helper lemmas: spans and character classes -/

theorem takeWhile_append_of_all {p : Char → Bool} (a l : List Char)
    (h : ∀ c ∈ a, p c = true) : (a ++ l).takeWhile p = a ++ l.takeWhile p := by
  induction a with
  | nil => simp
  | cons x xs ih =>
    have hx : p x = true := h x (by simp)
    simp only [List.cons_append, List.takeWhile_cons_of_pos hx]
    rw [ih (fun c hc => h c (by simp [hc]))]

theorem dropWhile_append_of_all {p : Char → Bool} (a l : List Char)
    (h : ∀ c ∈ a, p c = true) : (a ++ l).dropWhile p = l.dropWhile p := by
  induction a with
  | nil => simp
  | cons x xs ih =>
    have hx : p x = true := h x (by simp)
    simp only [List.cons_append, List.dropWhile_cons_of_pos hx]
    exact ih (fun c hc => h c (by simp [hc]))

theorem dropPlus_decomp (l : List Char) :
    ∃ m, l = m ++ dropPlus l ∧ ∀ c ∈ m, sepClass c := by
  unfold dropPlus
  split
  · exact ⟨[], rfl, by intro c hc; simp at hc⟩
  · rename_i c t
    by_cases hc : c = '+'
    · subst hc
      simp only [if_pos rfl]
      exact ⟨['+'], rfl, by intro x hx; simp at hx; subst hx; left; rfl⟩
    · simp only [if_neg hc]
      exact ⟨[], rfl, by intro x hx; simp at hx⟩

theorem sepTok_decomp {l t : List Char} (h : sepTok l = some t) :
    ∃ m, l = m ++ t ∧ m ≠ [] ∧ ∀ c ∈ m, sepClass c := by
  unfold sepTok at h
  split at h
  · exact absurd h (by simp)
  · rename_i c t0
    split at h
    · rename_i hct
      split at h
      · rename_i c2 t2
        split at h
        · rename_i hc2
          refine ⟨[c, c2], ?_, by simp, ?_⟩
          · simpa using congrArg (fun x => c :: c2 :: x) (Option.some.inj h)
          · intro x hx
            simp at hx
            rcases hx with rfl | rfl
            · exact Or.inr (Or.inr (Or.inl hct))
            · exact Or.inr (Or.inr (Or.inr (Or.inl hc2)))
        · exact absurd h (by simp)
      · exact absurd h (by simp)
    · split at h
      · rename_i hdash
        refine ⟨[c], ?_, by simp, ?_⟩
        · simpa using congrArg (fun x => c :: x) (Option.some.inj h)
        · intro x hx
          simp at hx
          subst hx
          exact Or.inr (Or.inr (Or.inr (Or.inr hdash)))
      · exact absurd h (by simp)

theorem yearTok_decomp {l t : List Char} (h : yearTok l = some t) :
    ∃ m, l = m ++ t ∧ m ≠ [] ∧ ∀ c ∈ m, yearClass c := by
  unfold yearTok at h
  split at h
  · rename_i y e a r t0
    split at h
    · rename_i hcond
      simp only [Bool.and_eq_true, decide_eq_true_eq] at hcond
      obtain ⟨⟨⟨hy, he⟩, ha⟩, hr⟩ := hcond
      split at h
      · rename_i s t2
        split at h
        · rename_i hs
          refine ⟨[y, e, a, r, s], ?_, by simp, ?_⟩
          · simpa using congrArg (fun x => y :: e :: a :: r :: s :: x) (Option.some.inj h)
          · intro x hx
            simp at hx
            rcases hx with rfl | rfl | rfl | rfl | rfl
            · exact Or.inr (Or.inl hy)
            · exact Or.inr (Or.inr (Or.inl he))
            · exact Or.inr (Or.inr (Or.inr (Or.inl ha)))
            · exact Or.inr (Or.inr (Or.inr (Or.inr (Or.inl hr))))
            · exact Or.inr (Or.inr (Or.inr (Or.inr (Or.inr hs))))
        · refine ⟨[y, e, a, r], ?_, by simp, ?_⟩
          · simpa using congrArg (fun x => y :: e :: a :: r :: x) (Option.some.inj h)
          · intro x hx
            simp at hx
            rcases hx with rfl | rfl | rfl | rfl
            · exact Or.inr (Or.inl hy)
            · exact Or.inr (Or.inr (Or.inl he))
            · exact Or.inr (Or.inr (Or.inr (Or.inl ha)))
            · exact Or.inr (Or.inr (Or.inr (Or.inr (Or.inl hr))))
      · refine ⟨[y, e, a, r], ?_, by simp, ?_⟩
        · simpa using congrArg (fun x => y :: e :: a :: r :: x) (Option.some.inj h)
        · intro x hx
          simp at hx
          rcases hx with rfl | rfl | rfl | rfl
          · exact Or.inr (Or.inl hy)
          · exact Or.inr (Or.inr (Or.inl he))
          · exact Or.inr (Or.inr (Or.inr (Or.inl ha)))
          · exact Or.inr (Or.inr (Or.inr (Or.inr (Or.inl hr))))
    · exact absurd h (by simp)
  · exact absurd h (by simp)

/-- Structure of a successful pattern-1 match: a nonempty digit group, a
separator region, a second nonempty digit group and a `years` region,
followed by the unconsumed rest. -/
theorem matchAt1_decomp {cs rest : List Char} {v : Nat}
    (h : matchAt1 cs = some (v, rest)) :
    ∃ d1 m1 d2 m2,
      cs = d1 ++ (m1 ++ (d2 ++ (m2 ++ rest))) ∧
      d1 ≠ [] ∧ (∀ c ∈ d1, isDig c = true) ∧
      (∀ c ∈ m1, sepClass c) ∧
      d2 ≠ [] ∧ (∀ c ∈ d2, isDig c = true) ∧
      m2 ≠ [] ∧ (∀ c ∈ m2, yearClass c) ∧
      v = max (digitsVal d1) (digitsVal d2) := by
  simp only [matchAt1] at h
  split at h
  · exact absurd h (by simp)
  · rename_i hd1
    split at h
    · exact absurd h (by simp)
    · rename_i t2 hsep
      split at h
      · exact absurd h (by simp)
      · rename_i hd2
        split at h
        · exact absurd h (by simp)
        · rename_i rest0 hyear
          obtain ⟨hv, hrest⟩ : v = max (digitsVal (cs.takeWhile isDig))
              (digitsVal ((t2.dropWhile isSp).takeWhile isDig)) ∧ rest0 = rest := by
            have := Option.some.inj h
            exact ⟨(Prod.mk.injEq _ _ _ _ ▸ this).1.symm, (Prod.mk.injEq _ _ _ _ ▸ this).2⟩
          subst hrest
          obtain ⟨plusM, hplus, hplusC⟩ := dropPlus_decomp (cs.dropWhile isDig)
          obtain ⟨sepM, hsepEq, _, hsepC⟩ := sepTok_decomp hsep
          obtain ⟨yM, hyEq, hyNe, hyC⟩ := yearTok_decomp hyear
          refine ⟨cs.takeWhile isDig,
            plusM ++ ((dropPlus (cs.dropWhile isDig)).takeWhile isSp ++
              (sepM ++ t2.takeWhile isSp)),
            (t2.dropWhile isSp).takeWhile isDig,
            ((t2.dropWhile isSp).dropWhile isDig).takeWhile isSp ++ yM,
            ?_, ?_, ?_, ?_, ?_, ?_, ?_, ?_, hv⟩
          · conv_lhs => rw [(List.takeWhile_append_dropWhile isDig cs).symm]
            conv_lhs => rw [hplus]
            conv_lhs =>
              rw [(List.takeWhile_append_dropWhile isSp (dropPlus (cs.dropWhile isDig))).symm]
            conv_lhs => rw [hsepEq]
            conv_lhs => rw [(List.takeWhile_append_dropWhile isSp t2).symm]
            conv_lhs => rw [(List.takeWhile_append_dropWhile isDig (t2.dropWhile isSp)).symm]
            conv_lhs =>
              rw [(List.takeWhile_append_dropWhile isSp
                ((t2.dropWhile isSp).dropWhile isDig)).symm]
            conv_lhs => rw [hyEq]
            simp only [List.append_assoc]
          · intro hnil
            rw [hnil] at hd1
            exact hd1 rfl
          · exact fun c hc => List.mem_takeWhile_imp hc
          · intro c hc
            simp only [List.mem_append] at hc
            rcases hc with hc | hc | hc | hc
            · exact hplusC c hc
            · exact Or.inr (Or.inl (List.mem_takeWhile_imp hc))
            · exact hsepC c hc
            · exact Or.inr (Or.inl (List.mem_takeWhile_imp hc))
          · intro hnil
            rw [hnil] at hd2
            exact hd2 rfl
          · exact fun c hc => List.mem_takeWhile_imp hc
          · intro hnil
            rcases List.append_eq_nil.mp hnil with ⟨_, h2⟩
            exact hyNe h2
          · intro c hc
            simp only [List.mem_append] at hc
            rcases hc with hc | hc
            · exact Or.inl (List.mem_takeWhile_imp hc)
            · exact hyC c hc

/-- Structure of a successful pattern-2 match. -/
theorem matchAt2_decomp {cs rest : List Char} {v : Nat}
    (h : matchAt2 cs = some (v, rest)) :
    ∃ d m,
      cs = d ++ (m ++ rest) ∧
      d ≠ [] ∧ (∀ c ∈ d, isDig c = true) ∧
      (∀ c ∈ m, plusYearClass c) ∧
      v = digitsVal d := by
  simp only [matchAt2] at h
  split at h
  · exact absurd h (by simp)
  · rename_i hd
    split at h
    · exact absurd h (by simp)
    · rename_i c t1 hdrop
      split at h
      · rename_i hplus
        split at h
        · exact absurd h (by simp)
        · rename_i rest0 hyear
          obtain ⟨hv, hrest⟩ : v = digitsVal (cs.takeWhile isDig) ∧ rest0 = rest := by
            have := Option.some.inj h
            exact ⟨(Prod.mk.injEq _ _ _ _ ▸ this).1.symm, (Prod.mk.injEq _ _ _ _ ▸ this).2⟩
          subst hrest
          obtain ⟨yM, hyEq, hyNe, hyC⟩ := yearTok_decomp hyear
          refine ⟨cs.takeWhile isDig, c :: (t1.takeWhile isSp ++ yM), ?_, ?_, ?_, ?_, hv⟩
          · conv_lhs => rw [(List.takeWhile_append_dropWhile isDig cs).symm]
            conv_lhs => rw [hdrop]
            conv_lhs => rw [show t1 = t1.takeWhile isSp ++ t1.dropWhile isSp from
              (List.takeWhile_append_dropWhile isSp t1).symm]
            conv_lhs => rw [hyEq]
            simp only [List.cons_append, List.append_assoc]
          · intro hnil
            rw [hnil] at hd
            exact hd rfl
          · exact fun x hx => List.mem_takeWhile_imp hx
          · intro x hx
            simp only [List.mem_cons, List.mem_append] at hx
            rcases hx with rfl | hx | hx
            · exact Or.inl hplus
            · exact Or.inr (Or.inl (List.mem_takeWhile_imp hx))
            · exact Or.inr (hyC x hx)
      · exact absurd h (by simp)

/-- A pattern-1 match consumes at least one character. -/
theorem matchAt1_rest_length {cs rest : List Char} {v : Nat}
    (h : matchAt1 cs = some (v, rest)) : rest.length < cs.length := by
  obtain ⟨d1, m1, d2, m2, hcs, hd1, -, -, -, -, -, -, -⟩ := matchAt1_decomp h
  have : 0 < d1.length := List.length_pos.mpr hd1
  rw [hcs]
  simp only [List.length_append]
  omega

/-- A pattern-2 match consumes at least one character. -/
theorem matchAt2_rest_length {cs rest : List Char} {v : Nat}
    (h : matchAt2 cs = some (v, rest)) : rest.length < cs.length := by
  obtain ⟨d, m, hcs, hd, -, -, -⟩ := matchAt2_decomp h
  have : 0 < d.length := List.length_pos.mpr hd
  rw [hcs]
  simp only [List.length_append]
  omega

/-- `expTok` only ever drops characters. -/
theorem expTok_length {l t : List Char} (h : expTok l = some t) : t.length ≤ l.length := by
  unfold expTok at h
  split at h
  · split at h
    · rename_i heq
      rw [← Option.some.inj h]
      simp
      omega
    · exact absurd h (by simp)
  · exact absurd h (by simp)

/-- `ofTok` only ever drops characters. -/
theorem ofTok_length (l : List Char) : (ofTok l).length ≤ l.length := by
  unfold ofTok
  split
  · split
    · simp
      omega
    · simp
  · simp

/-- `yearTok` only ever drops characters. -/
theorem yearTok_length {l t : List Char} (h : yearTok l = some t) : t.length ≤ l.length := by
  obtain ⟨m, hm, -, -⟩ := yearTok_decomp h
  rw [hm]
  simp

/-- `List.dropWhile` only ever drops characters. -/
theorem dropWhile_length (p : Char → Bool) (l : List Char) :
    (l.dropWhile p).length ≤ l.length := by
  have h : (l.takeWhile p).length + (l.dropWhile p).length = l.length := by
    rw [← List.length_append, List.takeWhile_append_dropWhile]
  omega

/-- A pattern-3 match consumes at least one character. -/
theorem matchAt3_rest_length {cs rest : List Char} {v : Nat}
    (h : matchAt3 cs = some (v, rest)) : rest.length < cs.length := by
  simp only [matchAt3] at h
  split at h
  · exact absurd h (by simp)
  · rename_i hd
    split at h
    · exact absurd h (by simp)
    · rename_i t1 hyear
      split at h
      · exact absurd h (by simp)
      · rename_i rest0 hexp
        have hrest : rest0 = rest := by
          have := Option.some.inj h
          exact (Prod.mk.injEq _ _ _ _ ▸ this).2
        subst hrest
        have h1 : rest0.length ≤ ((ofTok (t1.dropWhile isSp)).dropWhile isSp).length :=
          expTok_length hexp
        have h2 : ((ofTok (t1.dropWhile isSp)).dropWhile isSp).length ≤
            (ofTok (t1.dropWhile isSp)).length := dropWhile_length _ _
        have h3 : (ofTok (t1.dropWhile isSp)).length ≤ (t1.dropWhile isSp).length :=
          ofTok_length _
        have h4 : (t1.dropWhile isSp).length ≤ t1.length := dropWhile_length _ _
        have h5 : t1.length ≤ ((cs.dropWhile isDig).dropWhile isSp).length :=
          yearTok_length hyear
        have h6 : ((cs.dropWhile isDig).dropWhile isSp).length ≤ (cs.dropWhile isDig).length :=
          dropWhile_length _ _
        have h7 : (cs.takeWhile isDig).length + (cs.dropWhile isDig).length = cs.length := by
          rw [← List.length_append, List.takeWhile_append_dropWhile]
        have h8 : 0 < (cs.takeWhile isDig).length := by
          rcases hcs : cs.takeWhile isDig with - | ⟨x, xs⟩
          · rw [hcs] at hd
            exact absurd rfl hd
          · simp
        omega

/-! ## Head matches of the literal texts `3-5 years` and `5+ years` -/

theorem digitsVal_append_single (l : List Char) (c : Char) :
    digitsVal (l ++ [c]) = 10 * digitsVal l + (c.toNat - 48) := by
  unfold digitsVal
  rw [List.foldl_append]
  rfl

theorem matchAt1_at_sub35 (a s2 : List Char) (ha : ∀ c ∈ a, isDig c = true) :
    matchAt1 (a ++ (sub35 ++ s2)) = some (max (digitsVal (a ++ ['3'])) 5, s2) := by
  have htw : (a ++ (sub35 ++ s2)).takeWhile isDig = a ++ ['3'] := by
    rw [takeWhile_append_of_all a _ ha]
    congr 1
  have hdw : (a ++ (sub35 ++ s2)).dropWhile isDig =
      '-' :: '5' :: ' ' :: 'y' :: 'e' :: 'a' :: 'r' :: 's' :: s2 := by
    rw [dropWhile_append_of_all a _ ha]
    show (('3' : Char) :: '-' :: '5' :: ' ' :: 'y' :: 'e' :: 'a' :: 'r' :: 's' :: s2).dropWhile
      isDig = '-' :: '5' :: ' ' :: 'y' :: 'e' :: 'a' :: 'r' :: 's' :: s2
    rw [List.dropWhile_cons_of_pos (by decide), List.dropWhile_cons_of_neg (by decide)]
  simp only [matchAt1, htw, hdw]
  have hne : ¬ ((a ++ ['3']).isEmpty = true) := by simp
  rw [if_neg hne]
  rfl

theorem matchAt2_at_sub5p (a s2 : List Char) (ha : ∀ c ∈ a, isDig c = true) :
    matchAt2 (a ++ (sub5p ++ s2)) = some (digitsVal (a ++ ['5']), s2) := by
  have htw : (a ++ (sub5p ++ s2)).takeWhile isDig = a ++ ['5'] := by
    rw [takeWhile_append_of_all a _ ha]
    congr 1
  have hdw : (a ++ (sub5p ++ s2)).dropWhile isDig =
      '+' :: ' ' :: 'y' :: 'e' :: 'a' :: 'r' :: 's' :: s2 := by
    rw [dropWhile_append_of_all a _ ha]
    show (('5' : Char) :: '+' :: ' ' :: 'y' :: 'e' :: 'a' :: 'r' :: 's' :: s2).dropWhile
      isDig = '+' :: ' ' :: 'y' :: 'e' :: 'a' :: 'r' :: 's' :: s2
    rw [List.dropWhile_cons_of_pos (by decide), List.dropWhile_cons_of_neg (by decide)]
  simp only [matchAt2, htw, hdw]
  have hne : ¬ ((a ++ ['5']).isEmpty = true) := by simp
  rw [if_neg hne]
  rfl

/-! ## Overlap analysis: matches starting before an occurrence of the
literal either carry a value of at least 5 or end before the occurrence -/

theorem key1_step4 {m2 rest u2 s2 : List Char} (hm2C : ∀ c ∈ m2, yearClass c)
    (h4 : m2 ++ rest = u2 ++ (sub35 ++ s2)) : ∃ a', rest = a' ++ (sub35 ++ s2) := by
  rcases List.append_eq_append_iff.mp h4 with ⟨u4, -, hr⟩ | ⟨u4, hm, hs⟩
  · exact ⟨u4, hr⟩
  · cases u4 with
    | nil =>
      exact ⟨[], by simpa using hs.symm⟩
    | cons c u5 =>
      exfalso
      have hc3 : c = '3' := by
        simp only [sub35, List.cons_append, List.cons.injEq] at hs
        exact hs.1.symm
      have hcy : yearClass c := hm2C c (by rw [hm]; simp)
      rw [hc3] at hcy
      exact (by decide : ¬ yearClass '3') hcy

theorem key1_step3 {d2 m2 rest u s2 : List Char} (hd2All : ∀ c ∈ d2, isDig c = true)
    (hm2Ne : m2 ≠ []) (hm2C : ∀ c ∈ m2, yearClass c)
    (h3 : d2 ++ (m2 ++ rest) = u ++ (sub35 ++ s2)) :
    ∃ a', rest = a' ++ (sub35 ++ s2) := by
  rcases List.append_eq_append_iff.mp h3 with ⟨u2, -, h4⟩ | ⟨u2, hd, hs⟩
  · exact key1_step4 hm2C h4
  · cases u2 with
    | nil =>
      exact @key1_step4 m2 rest [] s2 hm2C (by simpa using hs.symm)
    | cons c u3 =>
      have hs' : ('3' : Char) :: ('-' :: '5' :: ' ' :: 'y' :: 'e' :: 'a' :: 'r' :: 's' :: s2) =
          c :: (u3 ++ (m2 ++ rest)) := by
        simpa [sub35] using hs
      have htail : ('-' : Char) :: '5' :: ' ' :: 'y' :: 'e' :: 'a' :: 'r' :: 's' :: s2 =
          u3 ++ (m2 ++ rest) := (List.cons.injEq _ _ _ _ ▸ hs').2
      cases u3 with
      | cons c2 u4 =>
        exfalso
        have hc2 : c2 = '-' := by
          simp only [List.cons_append, List.cons.injEq] at htail
          exact htail.1.symm
        have hdig : isDig c2 = true := hd2All c2 (by rw [hd]; simp)
        rw [hc2] at hdig
        exact (by decide : ¬ isDig '-' = true) hdig
      | nil =>
        exfalso
        cases m2 with
        | nil => exact hm2Ne rfl
        | cons h2 m2' =>
          have hh2 : h2 = '-' := by
            simp only [List.nil_append, List.cons_append, List.cons.injEq] at htail
            exact htail.1.symm
          have hcy : yearClass h2 := hm2C h2 (by simp)
          rw [hh2] at hcy
          exact (by decide : ¬ yearClass '-') hcy

/-- A pattern-1 match on a text of the form `a ++ "3-5 years" ++ s2` either
has value at least 5 or leaves the occurrence of `"3-5 years"` untouched. -/
theorem key1 {a s2 rest : List Char} {v : Nat}
    (h : matchAt1 (a ++ (sub35 ++ s2)) = some (v, rest)) :
    5 ≤ v ∨ ∃ a', rest = a' ++ (sub35 ++ s2) := by
  by_cases hall : ∀ c ∈ a, isDig c = true
  · left
    rw [matchAt1_at_sub35 a s2 hall] at h
    have hv : max (digitsVal (a ++ ['3'])) 5 = v := (Prod.mk.injEq _ _ _ _ ▸ Option.some.inj h).1
    rw [← hv]
    exact le_max_right _ _
  · obtain ⟨d1, m1, d2, m2, hcs, -, hd1All, hm1C, -, hd2All, hm2Ne, hm2C, -⟩ := matchAt1_decomp h
    rcases List.append_eq_append_iff.mp hcs with ⟨w, hw1, -⟩ | ⟨w, -, h2⟩
    · exfalso
      exact hall fun c hc => hd1All c (by rw [hw1]; exact List.mem_append_left _ hc)
    · rcases List.append_eq_append_iff.mp h2 with ⟨u, -, h3⟩ | ⟨u, hm, hs⟩
      · exact Or.inr (key1_step3 hd2All hm2Ne hm2C h3)
      · cases u with
        | nil =>
          exact Or.inr (@key1_step3 d2 m2 rest [] s2 hd2All hm2Ne hm2C (by simpa using hs.symm))
        | cons c u' =>
          exfalso
          have hc3 : c = '3' := by
            simp only [sub35, List.cons_append, List.cons.injEq] at hs
            exact hs.1.symm
          have hcs' : sepClass c := hm1C c (by rw [hm]; simp)
          rw [hc3] at hcs'
          exact (by decide : ¬ sepClass '3') hcs'

/-- A pattern-2 match on a text of the form `a ++ "5+ years" ++ s2` either
has value at least 5 or leaves the occurrence of `"5+ years"` untouched. -/
theorem key2 {a s2 rest : List Char} {v : Nat}
    (h : matchAt2 (a ++ (sub5p ++ s2)) = some (v, rest)) :
    5 ≤ v ∨ ∃ a', rest = a' ++ (sub5p ++ s2) := by
  by_cases hall : ∀ c ∈ a, isDig c = true
  · left
    rw [matchAt2_at_sub5p a s2 hall] at h
    have hv : digitsVal (a ++ ['5']) = v := (Prod.mk.injEq _ _ _ _ ▸ Option.some.inj h).1
    rw [← hv, digitsVal_append_single]
    have : ('5' : Char).toNat - 48 = 5 := by decide
    omega
  · obtain ⟨d, m, hcs, -, hdAll, hmC, -⟩ := matchAt2_decomp h
    rcases List.append_eq_append_iff.mp hcs with ⟨w, hw1, -⟩ | ⟨w, -, h2⟩
    · exfalso
      exact hall fun c hc => hdAll c (by rw [hw1]; exact List.mem_append_left _ hc)
    · rcases List.append_eq_append_iff.mp h2 with ⟨u, -, hr⟩ | ⟨u, hm, hs⟩
      · exact Or.inr ⟨u, hr⟩
      · cases u with
        | nil =>
          exact Or.inr ⟨[], by simpa using hs.symm⟩
        | cons c u' =>
          exfalso
          have hc5 : c = '5' := by
            simp only [sub5p, List.cons_append, List.cons.injEq] at hs
            exact hs.1.symm
          have hcp : plusYearClass c := hmC c (by rw [hm]; simp)
          rw [hc5] at hcp
          exact (by decide : ¬ plusYearClass '5') hcp

/-! ## The finditer scan picks up a value of at least 5 whenever the
literal occurs somewhere in the text -/

theorem scanFuel_ge (f : List Char → Option (Nat × List Char)) (b : List Char) (v0 : Nat)
    (hb : ∀ s2 : List Char, ∃ p : Nat × List Char, f (b ++ s2) = some p ∧ v0 ≤ p.1)
    (hk : ∀ cs v rest, containsSeq b cs → f cs = some (v, rest) →
      v0 ≤ v ∨ containsSeq b rest)
    (hlt : ∀ cs v rest, f cs = some (v, rest) → rest.length < cs.length) :
    ∀ fuel cs, cs.length < fuel → containsSeq b cs →
      ∃ w ∈ scanFuel f fuel cs, v0 ≤ w := by
  intro fuel
  induction fuel with
  | zero => exact fun cs hlen _ => absurd hlen (Nat.not_lt_zero _)
  | succ n ih =>
    intro cs hlen hcont
    rcases hcase : f cs with - | ⟨v, rest⟩
    · obtain ⟨a, s2, rfl⟩ := hcont
      cases a with
      | nil =>
        obtain ⟨p, hp, -⟩ := hb s2
        rw [List.nil_append] at hcase
        rw [hp] at hcase
        exact absurd hcase (by simp)
      | cons x a' =>
        rw [List.cons_append] at hcase ⊢
        have hscan : scanFuel f (n + 1) (x :: (a' ++ (b ++ s2))) =
            scanFuel f n (a' ++ (b ++ s2)) := by
          simp only [scanFuel, hcase]
        rw [hscan]
        apply ih
        · rw [List.cons_append] at hlen
          simp only [List.length_cons] at hlen
          omega
        · exact ⟨a', s2, rfl⟩
    · have hscan : scanFuel f (n + 1) cs = v :: scanFuel f n rest := by
        simp only [scanFuel, hcase]
      rcases hk cs v rest hcont hcase with hge | hcont'
      · exact ⟨v, by rw [hscan]; exact List.mem_cons_self _ _, hge⟩
      · have hrl : rest.length < n :=
          lt_of_lt_of_le (hlt cs v rest hcase) (Nat.lt_succ_iff.mp hlen)
        obtain ⟨w, hw, hwge⟩ := ih rest hrl hcont'
        exact ⟨w, by rw [hscan]; exact List.mem_cons_of_mem _ hw, hwge⟩

/-- Any text containing `3-5 years` produces a pattern-1 finditer value
of at least 5. -/
theorem findIter1_ge (a s2 : List Char) :
    ∃ w ∈ findIterVals matchAt1 (a ++ (sub35 ++ s2)), 5 ≤ w := by
  apply scanFuel_ge matchAt1 sub35 5
  · intro s2'
    refine ⟨(max (digitsVal (([] : List Char) ++ ['3'])) 5, s2'), ?_, le_max_right _ _⟩
    have := matchAt1_at_sub35 [] s2' (by intro c hc; simp at hc)
    simpa using this
  · intro cs v rest hcont hc
    obtain ⟨a', s2', rfl⟩ := hcont
    rcases key1 hc with h5 | ⟨a'', hr⟩
    · exact Or.inl h5
    · exact Or.inr ⟨a'', s2', hr⟩
  · exact fun cs v rest hc => matchAt1_rest_length hc
  · exact Nat.lt_succ_self _
  · exact ⟨a, s2, rfl⟩

/-- Any text containing `5+ years` produces a pattern-2 finditer value
of at least 5. -/
theorem findIter2_ge (a s2 : List Char) :
    ∃ w ∈ findIterVals matchAt2 (a ++ (sub5p ++ s2)), 5 ≤ w := by
  apply scanFuel_ge matchAt2 sub5p 5
  · intro s2'
    refine ⟨(digitsVal (([] : List Char) ++ ['5']), s2'), ?_, ?_⟩
    · have := matchAt2_at_sub5p [] s2' (by intro c hc; simp at hc)
      simpa using this
    · show 5 ≤ digitsVal ['5']
      decide
  · intro cs v rest hcont hc
    obtain ⟨a', s2', rfl⟩ := hcont
    rcases key2 hc with h5 | ⟨a'', hr⟩
    · exact Or.inl h5
    · exact Or.inr ⟨a'', s2', hr⟩
  · exact fun cs v rest hc => matchAt2_rest_length hc
  · exact Nat.lt_succ_self _
  · exact ⟨a, s2, rfl⟩

/-! ## The running maximum `max_years` computes the maximum of the match
values -/

theorem maxStep_some (m x : Nat) : maxStep (some m) x = some (max m x) := by
  simp only [maxStep]
  split
  · rename_i h
    exact congrArg some (max_eq_right (Nat.le_of_lt h)).symm
  · rename_i h
    exact congrArg some (max_eq_left (Nat.le_of_not_lt h)).symm

theorem foldl_maxStep_some (l : List Nat) :
    ∀ m, l.foldl maxStep (some m) = some (l.foldl max m) := by
  induction l with
  | nil => intro m; rfl
  | cons x xs ih =>
    intro m
    rw [List.foldl_cons, maxStep_some, ih, List.foldl_cons]

theorem foldl_maxStep_cons (x : Nat) (xs : List Nat) :
    (x :: xs).foldl maxStep none = some (xs.foldl max x) := by
  rw [List.foldl_cons]
  exact foldl_maxStep_some xs x

theorem foldl_max_mem (xs : List Nat) : ∀ x, xs.foldl max x = x ∨ xs.foldl max x ∈ xs := by
  induction xs with
  | nil => intro x; left; rfl
  | cons y ys ih =>
    intro x
    rw [List.foldl_cons]
    rcases ih (max x y) with heq | hmem
    · rcases max_choice x y with hxy | hxy
      · left; rw [heq, hxy]
      · right; rw [heq, hxy]; exact List.mem_cons_self _ _
    · right; exact List.mem_cons_of_mem _ hmem

theorem le_foldl_max_init (xs : List Nat) : ∀ x, x ≤ xs.foldl max x := by
  induction xs with
  | nil => intro x; exact Nat.le_refl x
  | cons y ys ih =>
    intro x
    rw [List.foldl_cons]
    exact le_trans (Nat.le_max_left x y) (ih (max x y))

theorem le_foldl_max_mem (xs : List Nat) : ∀ x, ∀ w ∈ xs, w ≤ xs.foldl max x := by
  induction xs with
  | nil => intro x w hw; simp at hw
  | cons y ys ih =>
    intro x w hw
    rw [List.foldl_cons]
    rcases List.mem_cons.mp hw with rfl | hmem
    · exact le_trans (Nat.le_max_right x w) (le_foldl_max_init ys _)
    · exact ih (max x y) w hmem

/-- `extract_years_required` is `none` exactly when there is no match, and
otherwise returns the maximum over all match values. -/
theorem extract_years_eq_max (t : List Char) :
    (extract_years_required t = none ↔ matchValues t = []) ∧
    (∀ v, extract_years_required t = some v →
      v ∈ matchValues t ∧ ∀ w ∈ matchValues t, w ≤ v) := by
  by_cases hemp : t.isEmpty = true
  · have hnil : t = [] := by
      cases t
      · rfl
      · simp at hemp
    subst hnil
    constructor
    · constructor
      · intro _; rfl
      · intro _; rfl
    · intro v hv
      simp [extract_years_required] at hv
  · have hext : extract_years_required t = (matchValues t).foldl maxStep none := by
      unfold extract_years_required
      rw [if_neg hemp]
    constructor
    · rw [hext]
      cases hmv : matchValues t with
      | nil => simp
      | cons x xs =>
        rw [foldl_maxStep_cons]
        simp
    · intro v hv
      rw [hext] at hv
      cases hmv : matchValues t with
      | nil =>
        rw [hmv] at hv
        simp at hv
      | cons x xs =>
        rw [hmv, foldl_maxStep_cons] at hv
        have hveq : xs.foldl max x = v := Option.some.inj hv
        constructor
        · rcases foldl_max_mem xs x with heq | hmem
          · rw [← hveq, heq]; exact List.mem_cons_self _ _
          · rw [← hveq]; exact List.mem_cons_of_mem _ hmem
        · intro w hw
          rcases List.mem_cons.mp hw with rfl | hmem
          · rw [← hveq]; exact le_foldl_max_init xs w
          · rw [← hveq]; exact le_foldl_max_mem xs x w hmem

/-- A value in the match list bounds the extraction result from below. -/
theorem extract_years_ge_of_mem {t : List Char} {w : Nat} (hw : w ∈ matchValues t) :
    ∃ n, extract_years_required t = some n ∧ w ≤ n := by
  obtain ⟨hnone, hsome⟩ := extract_years_eq_max t
  cases hext : extract_years_required t with
  | none =>
    rw [hnone.mp hext] at hw
    simp at hw
  | some n =>
    exact ⟨n, rfl, (hsome n hext).2 w hw⟩

/-! ## Deduplication lemmas -/

theorem dedupBy_sublist {κ : Type} [DecidableEq κ] (key : Posting → κ) :
    ∀ (seen : List κ) (l : List Posting), List.Sublist (dedupBy key seen l) l := by
  intro seen l
  induction l generalizing seen with
  | nil => simp [dedupBy]
  | cons x xs ih =>
    simp only [dedupBy]
    split
    · exact List.Sublist.cons _ (ih seen)
    · exact List.Sublist.cons₂ _ (ih _)

theorem mem_dedupBy {κ : Type} [DecidableEq κ] (key : Posting → κ) :
    ∀ (seen : List κ) (l : List Posting) (p : Posting),
      p ∈ dedupBy key seen l ↔
        key p ∉ seen ∧ ∃ pre post, l = pre ++ p :: post ∧ ∀ q ∈ pre, key q ≠ key p := by
  intro seen l
  induction l generalizing seen with
  | nil =>
    intro p
    constructor
    · intro h
      simp [dedupBy] at h
    · rintro ⟨-, pre, post, h, -⟩
      exact absurd h (by simp)
  | cons x xs ih =>
    intro p
    simp only [dedupBy]
    split
    · rename_i hseen
      rw [ih seen p]
      constructor
      · rintro ⟨hns, pre, post, heq, hpre⟩
        refine ⟨hns, x :: pre, post, by simp [heq], ?_⟩
        intro q hq
        rcases List.mem_cons.mp hq with rfl | hq'
        · intro hkey
          exact hns (hkey ▸ hseen)
        · exact hpre q hq'
      · rintro ⟨hns, pre, post, heq, hpre⟩
        cases pre with
        | nil =>
          exfalso
          have hinj := List.cons.injEq _ _ _ _ ▸ heq
          exact hns (hinj.1 ▸ hseen)
        | cons y pre' =>
          have hinj := List.cons.injEq _ _ _ _ ▸ heq
          refine ⟨hns, pre', post, hinj.2, ?_⟩
          intro q hq
          exact hpre q (List.mem_cons_of_mem _ hq)
    · rename_i hseen
      rw [List.mem_cons, ih (key x :: seen) p]
      constructor
      · rintro (rfl | ⟨hns, pre, post, heq, hpre⟩)
        · exact ⟨hseen, [], xs, rfl, by simp⟩
        · simp only [List.mem_cons, not_or] at hns
          refine ⟨hns.2, x :: pre, post, by simp [heq], ?_⟩
          intro q hq
          rcases List.mem_cons.mp hq with rfl | hq'
          · exact fun h => hns.1 h.symm
          · exact hpre q hq'
      · rintro ⟨hns, pre, post, heq, hpre⟩
        cases pre with
        | nil =>
          left
          have hinj := List.cons.injEq _ _ _ _ ▸ heq
          exact hinj.1.symm
        | cons y pre' =>
          right
          have hinj := List.cons.injEq _ _ _ _ ▸ heq
          have hxy : x = y := hinj.1
          refine ⟨?_, pre', post, hinj.2, ?_⟩
          · simp only [List.mem_cons, not_or]
            refine ⟨?_, hns⟩
            have := hpre y (by simp)
            rw [← hxy] at this
            exact fun h => this h.symm
          · intro q hq
            exact hpre q (List.mem_cons_of_mem _ hq)

/-! ## CSV upsert lemmas -/

theorem updateFirstRow_length (u st rp cp nid : String) :
    ∀ rows : List Row, (updateFirstRow u st rp cp nid rows).length = rows.length := by
  intro rows
  induction rows with
  | nil => rfl
  | cons r rs ih =>
    simp only [updateFirstRow]
    split
    · simp
    · simp [ih]

theorem updateFirstRow_decomp (u st rp cp nid : String) :
    ∀ (pre : List Row) (r : Row) (post : List Row), (∀ q ∈ pre, q.job_url ≠ u) →
      r.job_url = u →
      updateFirstRow u st rp cp nid (pre ++ r :: post) =
        pre ++ updatedRow r st rp cp nid :: post := by
  intro pre
  induction pre with
  | nil =>
    intro r post hpre hr
    simp [updateFirstRow, hr]
  | cons q pre' ih =>
    intro r post hpre hr
    simp only [List.cons_append, updateFirstRow]
    rw [if_neg (hpre q (by simp))]
    exact congrArg (fun l => q :: l) (ih r post (fun q' hq' => hpre q' (List.mem_cons_of_mem _ hq')) hr)

theorem exists_first_match (u : String) :
    ∀ rows : List Row, rows.any (fun r => r.job_url == u) = true →
      ∃ pre r post, rows = pre ++ r :: post ∧ (∀ q ∈ pre, q.job_url ≠ u) ∧ r.job_url = u := by
  intro rows
  induction rows with
  | nil => intro h; simp at h
  | cons r rs ih =>
    intro h
    by_cases hr : r.job_url = u
    · exact ⟨[], r, rs, rfl, by simp, hr⟩
    · have hb : (r.job_url == u) = false := beq_eq_false_iff_ne.mpr hr
      rw [List.any_cons, hb, Bool.false_or] at h
      obtain ⟨pre, rr, post, heq, hpre, hrr⟩ := ih h
      refine ⟨r :: pre, rr, post, by simp [heq], ?_, hrr⟩
      intro q hq
      rcases List.mem_cons.mp hq with rfl | hq'
      · exact hr
      · exact hpre q hq'

/-- After `log_job_to_csv` runs for a job with a URL, a row with that URL
is present. -/
theorem log_job_mem_url (job : Job) (u st rp cp nid now : String) (rows : List Row)
    (hjob : job.job_url = some u) :
    ∃ r ∈ log_job_to_csv job st rp cp nid now rows, r.job_url = u := by
  simp only [log_job_to_csv, hjob]
  split
  · rename_i hany
    obtain ⟨pre, r, post, heq, hpre, hr⟩ := exists_first_match u rows hany
    rw [heq, updateFirstRow_decomp u st rp cp nid pre r post hpre hr]
    exact ⟨updatedRow r st rp cp nid, by simp, hr⟩
  · refine ⟨newRowFor job st rp cp nid now, by simp, ?_⟩
    simp [newRowFor, hjob]

/-! ## Split and strip lemmas (`generator.py`) -/

theorem isPrefixOf_exists {d : List Char} : ∀ {l : List Char},
    d.isPrefixOf l = true ↔ ∃ t, l = d ++ t := by
  induction d with
  | nil =>
    intro l
    constructor
    · intro _
      exact ⟨l, rfl⟩
    · intro _
      cases l <;> rfl
  | cons c d' ih =>
    intro l
    cases l with
    | nil =>
      constructor
      · intro h
        simp [List.isPrefixOf] at h
      · rintro ⟨t, ht⟩
        exact absurd ht (by simp)
    | cons x l' =>
      simp only [List.isPrefixOf, Bool.and_eq_true, beq_iff_eq]
      constructor
      · rintro ⟨rfl, hpre⟩
        obtain ⟨t, ht⟩ := ih.mp hpre
        exact ⟨t, by rw [List.cons_append, ht]⟩
      · rintro ⟨t, ht⟩
        simp only [List.cons_append, List.cons.injEq] at ht
        exact ⟨ht.1.symm, ih.mpr ⟨t, ht.2⟩⟩

theorem splitFirst_some {d : List Char} : ∀ {l a b : List Char},
    splitFirst d l = some (a, b) →
      l = a ++ (d ++ b) ∧ ∀ a' b', l = a' ++ (d ++ b') → a.length ≤ a'.length := by
  intro l
  induction l with
  | nil =>
    intro a b h
    simp only [splitFirst] at h
    split at h
    · rename_i hpre
      obtain ⟨t, ht⟩ := isPrefixOf_exists.mp hpre
      obtain ⟨hd, ht'⟩ := (List.append_eq_nil).mp ht.symm
      have ha : ([] : List Char) = a := (Prod.mk.injEq _ _ _ _ ▸ Option.some.inj h).1
      have hb : List.drop d.length [] = b := (Prod.mk.injEq _ _ _ _ ▸ Option.some.inj h).2
      constructor
      · rw [← ha, hd, ← hb]
        simp
      · intro a' b' _
        rw [← ha]
        simp
    · exact absurd h (by simp)
  | cons c t ihl =>
    intro a b h
    simp only [splitFirst] at h
    split at h
    · rename_i hpre
      obtain ⟨u, hu⟩ := isPrefixOf_exists.mp hpre
      have ha : ([] : List Char) = a := (Prod.mk.injEq _ _ _ _ ▸ Option.some.inj h).1
      have hb : List.drop d.length (c :: t) = b := (Prod.mk.injEq _ _ _ _ ▸ Option.some.inj h).2
      have hdrop : List.drop d.length (c :: t) = u := by
        rw [hu, List.drop_left]
      constructor
      · rw [← ha, hu, ← hb, hdrop]
        simp
      · intro a' b' _
        rw [← ha]
        simp
    · rename_i hpre
      split at h
      · rename_i p hp
        obtain ⟨a0, b0⟩ := p
        obtain ⟨hrec1, hrec2⟩ := @ihl a0 b0 hp
        have ha : c :: a0 = a := (Prod.mk.injEq _ _ _ _ ▸ Option.some.inj h).1
        have hb : b0 = b := (Prod.mk.injEq _ _ _ _ ▸ Option.some.inj h).2
        constructor
        · rw [← ha, ← hb]
          rw [List.cons_append, ← hrec1]
        · intro a' b' heq'
          cases a' with
          | nil =>
            exfalso
            exact hpre (isPrefixOf_exists.mpr ⟨b', by simpa using heq'⟩)
          | cons c' a'' =>
            simp only [List.cons_append, List.cons.injEq] at heq'
            have := hrec2 a'' b' heq'.2
            rw [← ha]
            simp only [List.length_cons]
            omega
      · exact absurd h (by simp)

theorem splitFirst_none {d : List Char} : ∀ {l : List Char},
    splitFirst d l = none → ¬ ∃ a b, l = a ++ (d ++ b) := by
  intro l
  induction l with
  | nil =>
    intro h hex
    obtain ⟨a, b, hab⟩ := hex
    simp only [splitFirst] at h
    split at h
    · exact absurd h (by simp)
    · rename_i hpre
      have h0 := (List.append_eq_nil).mp hab.symm
      have h1 := (List.append_eq_nil).mp h0.2
      exact hpre (isPrefixOf_exists.mpr ⟨[], by rw [h1.1]; rfl⟩)
  | cons c t ih =>
    intro h hex
    obtain ⟨a, b, hab⟩ := hex
    simp only [splitFirst] at h
    split at h
    · exact absurd h (by simp)
    · rename_i hpre
      cases a with
      | nil =>
        exact hpre (isPrefixOf_exists.mpr ⟨b, by simpa using hab⟩)
      | cons c' a' =>
        simp only [List.cons_append, List.cons.injEq] at hab
        split at h
        · exact absurd h (by simp)
        · rename_i hrec
          exact ih hrec ⟨a', b, hab.2⟩

theorem dropWhile_head_not (p : Char → Bool) :
    ∀ (l : List Char) (x : Char) (xs : List Char), l.dropWhile p = x :: xs → p x = false := by
  intro l
  induction l with
  | nil => intro x xs h; simp at h
  | cons y l' ih =>
    intro x xs h
    by_cases hy : p y = true
    · rw [List.dropWhile_cons_of_pos hy] at h
      exact ih x xs h
    · rw [List.dropWhile_cons_of_neg hy] at h
      have := (List.cons.injEq _ _ _ _ ▸ h).1
      rw [← this]
      exact Bool.eq_false_iff.mpr hy

theorem dropWhile_dropWhile (p : Char → Bool) (l : List Char) :
    (l.dropWhile p).dropWhile p = l.dropWhile p := by
  cases h : l.dropWhile p with
  | nil => rfl
  | cons x xs =>
    rw [List.dropWhile_cons_of_neg]
    rw [dropWhile_head_not p l x xs h]
    simp

/-- `str.strip` is idempotent: the output carries no leading or trailing
whitespace. -/
theorem stripL_idem (l : List Char) : stripL (stripL l) = stripL l := by
  have houter : List.dropWhile isSp (((l.dropWhile isSp).reverse.dropWhile isSp).reverse) =
      ((l.dropWhile isSp).reverse.dropWhile isSp).reverse := by
    cases hB : ((l.dropWhile isSp).reverse.dropWhile isSp).reverse with
    | nil => rfl
    | cons c bs =>
      have hBval : (l.dropWhile isSp).reverse.dropWhile isSp = bs.reverse ++ [c] := by
        have := congrArg List.reverse hB
        rw [List.reverse_reverse] at this
        rw [this]
        simp
      obtain ⟨T, hA⟩ : ∃ T, (l.dropWhile isSp).reverse = T ++ (bs.reverse ++ [c]) := by
        refine ⟨(l.dropWhile isSp).reverse.takeWhile isSp, ?_⟩
        conv_lhs => rw [(List.takeWhile_append_dropWhile isSp (l.dropWhile isSp).reverse).symm]
        rw [hBval]
      have hAval : l.dropWhile isSp = c :: (bs ++ T.reverse) := by
        have := congrArg List.reverse hA
        rw [List.reverse_reverse] at this
        rw [this]
        simp
      have hc : isSp c = false := dropWhile_head_not isSp l c _ hAval
      rw [List.dropWhile_cons_of_neg (by simp [hc])]
  unfold stripL
  rw [houter, List.reverse_reverse, dropWhile_dropWhile]

/-! ## Claim theorems -/

/-- Claim C1: `passes_experience_filter` follows the documented precedence:
a senior keyword rejects; otherwise extracted years above the configured
maximum reject unless a junior keyword is present; all other cases accept.
In particular, with years 8 and threshold 5, a junior keyword yields
acceptance and its absence yields rejection. -/
theorem c1_passes_experience_precedence :
    (∀ title description : List Char,
      is_senior_role title description = true →
      passes_experience_filter title description = false) ∧
    (∀ (title description : List Char) (y : Nat),
      is_senior_role title description = false →
      extract_years_required description = some y →
      MAX_YEARS_EXPERIENCE < y →
      is_junior_role title description = false →
      passes_experience_filter title description = false) ∧
    (∀ title description : List Char,
      is_senior_role title description = false →
      (extract_years_required description = none ∨
       (∃ y, extract_years_required description = some y ∧ y ≤ MAX_YEARS_EXPERIENCE) ∨
       (∃ y, extract_years_required description = some y ∧ MAX_YEARS_EXPERIENCE < y ∧
         is_junior_role title description = true)) →
      passes_experience_filter title description = true) ∧
    (extract_years_required "8 years of experience".toList = some 8 ∧
     passes_experience_filter "junior developer".toList "8 years of experience".toList = true ∧
     passes_experience_filter "developer".toList "8 years of experience".toList = false) := by
  refine ⟨?_, ?_, ?_, by decide, by decide, by decide⟩
  · intro title description h
    simp [passes_experience_filter, h]
  · intro title description y hsen hext hgt hjun
    simp only [passes_experience_filter, hsen, Bool.false_eq_true, if_false, hext]
    rw [if_pos hgt, if_neg (by simp [hjun])]
  · intro title description hsen hcase
    rcases hcase with hnone | ⟨y, hext, hle⟩ | ⟨y, hext, hgt, hjun⟩
    · simp only [passes_experience_filter, hsen, Bool.false_eq_true, if_false, hnone]
    · simp only [passes_experience_filter, hsen, Bool.false_eq_true, if_false, hext]
      rw [if_neg (Nat.not_lt.mpr hle)]
    · simp only [passes_experience_filter, hsen, Bool.false_eq_true, if_false, hext]
      rw [if_pos hgt, hjun, if_pos rfl]

/-- Witness for C1 at concrete inputs: a senior keyword rejects, the
over-threshold path without junior keyword rejects, and in-bound years
accept. -/
theorem c1_passes_experience_precedence_witness :
    passes_experience_filter "Senior engineer".toList "".toList = false ∧
    passes_experience_filter "developer".toList "8 years of experience".toList = false ∧
    passes_experience_filter "developer".toList "2-4 years experience wanted".toList = true := by
  refine ⟨?_, ?_, ?_⟩
  · exact c1_passes_experience_precedence.1 _ _ (by decide)
  · exact c1_passes_experience_precedence.2.1 _ _ 8 (by decide) (by decide) (by decide) (by decide)
  · exact c1_passes_experience_precedence.2.2.1 _ _ (by decide)
      (Or.inr (Or.inl ⟨4, by decide, by decide⟩))

/-- Claim C2: `_extract_years_required` returns the maximum over all
finditer matches of the three pattern classes, `none` when there is no
match; any text containing `3-5 years` yields at least 5, any text
containing `5+ years` yields at least 5, and a text containing both yields
the maximum of all matches. -/
theorem c2_extract_years_max :
    (∀ t : List Char,
      (extract_years_required t = none ↔ matchValues t = []) ∧
      (∀ v, extract_years_required t = some v →
        v ∈ matchValues t ∧ ∀ w ∈ matchValues t, w ≤ v)) ∧
    (∀ s1 s2 : List Char,
      ∃ n, extract_years_required (s1 ++ (sub35 ++ s2)) = some n ∧ 5 ≤ n) ∧
    (∀ s1 s2 : List Char,
      ∃ n, extract_years_required (s1 ++ (sub5p ++ s2)) = some n ∧ 5 ≤ n) ∧
    (∀ s1 s2 s3 : List Char,
      ∃ n, extract_years_required (s1 ++ (sub35 ++ (s2 ++ (sub5p ++ s3)))) = some n ∧ 5 ≤ n ∧
        n ∈ matchValues (s1 ++ (sub35 ++ (s2 ++ (sub5p ++ s3)))) ∧
        ∀ w ∈ matchValues (s1 ++ (sub35 ++ (s2 ++ (sub5p ++ s3)))), w ≤ n) := by
  refine ⟨extract_years_eq_max, ?_, ?_, ?_⟩
  · intro s1 s2
    obtain ⟨w, hw, h5⟩ := findIter1_ge s1 s2
    obtain ⟨n, hn, hwn⟩ := extract_years_ge_of_mem
      (List.mem_append.mpr (Or.inl (List.mem_append.mpr (Or.inl hw))))
    exact ⟨n, hn, le_trans h5 hwn⟩
  · intro s1 s2
    obtain ⟨w, hw, h5⟩ := findIter2_ge s1 s2
    obtain ⟨n, hn, hwn⟩ := extract_years_ge_of_mem
      (List.mem_append.mpr (Or.inl (List.mem_append.mpr (Or.inr hw))))
    exact ⟨n, hn, le_trans h5 hwn⟩
  · intro s1 s2 s3
    obtain ⟨w, hw, h5⟩ := findIter1_ge s1 (s2 ++ (sub5p ++ s3))
    obtain ⟨n, hn, hwn⟩ := extract_years_ge_of_mem
      (List.mem_append.mpr (Or.inl (List.mem_append.mpr (Or.inl hw))))
    obtain ⟨hmem, hmax⟩ := (extract_years_eq_max _).2 n hn
    exact ⟨n, hn, le_trans h5 hwn, hmem, hmax⟩

/-- Witness for C2 at concrete inputs. -/
theorem c2_extract_years_max_witness :
    (∃ n, extract_years_required ("need ".toList ++ (sub35 ++ "!".toList)) = some n ∧ 5 ≤ n) ∧
    (∃ n, extract_years_required ("need ".toList ++ (sub5p ++ "!".toList)) = some n ∧ 5 ≤ n) ∧
    (5 ∈ matchValues sub35 ∧ ∀ w ∈ matchValues sub35, w ≤ 5) := by
  refine ⟨c2_extract_years_max.2.1 "need ".toList "!".toList,
    c2_extract_years_max.2.2.1 "need ".toList "!".toList, ?_⟩
  exact (c2_extract_years_max.1 sub35).2 5 (by decide)

/-- Claim C3: `_deduplicate` first keeps only the first posting for each
URL, then keeps only the first surviving posting for each
`(company, title)` pair, and the survivors stay in input order. -/
theorem c3_deduplicate_two_pass :
    ∀ l : List Posting,
      List.Sublist (dedupBy (fun p => p.job_url) [] l) l ∧
      List.Sublist (deduplicate l) (dedupBy (fun p => p.job_url) [] l) ∧
      List.Sublist (deduplicate l) l ∧
      (∀ p, p ∈ dedupBy (fun p => p.job_url) [] l ↔
        ∃ pre post, l = pre ++ p :: post ∧ ∀ q ∈ pre, q.job_url ≠ p.job_url) ∧
      (∀ p, p ∈ deduplicate l ↔
        ∃ pre post, dedupBy (fun p => p.job_url) [] l = pre ++ p :: post ∧
          ∀ q ∈ pre, (q.company, q.title) ≠ (p.company, p.title)) := by
  intro l
  have h1 : List.Sublist (dedupBy (fun p => p.job_url) [] l) l := dedupBy_sublist _ [] l
  have h2 : List.Sublist (deduplicate l) (dedupBy (fun p => p.job_url) [] l) :=
    dedupBy_sublist _ [] _
  refine ⟨h1, h2, h2.trans h1, ?_, ?_⟩
  · intro p
    rw [mem_dedupBy]
    simp
  · intro p
    rw [show deduplicate l =
      dedupBy (fun p => (p.company, p.title)) [] (dedupBy (fun p => p.job_url) [] l) from rfl]
    rw [mem_dedupBy]
    simp

/-- Witness for C3: with two equal URLs and a further posting repeating the
first posting's `(company, title)` pair, only the first posting survives. -/
theorem c3_deduplicate_two_pass_witness :
    List.Sublist
      (deduplicate [⟨"u1", "A", "T", "x"⟩, ⟨"u1", "B", "S", "y"⟩, ⟨"u2", "A", "T", "z"⟩])
      [⟨"u1", "A", "T", "x"⟩, ⟨"u1", "B", "S", "y"⟩, ⟨"u2", "A", "T", "z"⟩] ∧
    (⟨"u1", "A", "T", "x"⟩ : Posting) ∈
      dedupBy (fun p => p.job_url) []
        [⟨"u1", "A", "T", "x"⟩, ⟨"u1", "B", "S", "y"⟩, ⟨"u2", "A", "T", "z"⟩] ∧
    deduplicate [⟨"u1", "A", "T", "x"⟩, ⟨"u1", "B", "S", "y"⟩, ⟨"u2", "A", "T", "z"⟩] =
      [⟨"u1", "A", "T", "x"⟩] := by
  refine ⟨(c3_deduplicate_two_pass _).2.2.1, ?_, by decide⟩
  exact ((c3_deduplicate_two_pass _).2.2.2.1 _).mpr
    ⟨[], [⟨"u1", "B", "S", "y"⟩, ⟨"u2", "A", "T", "z"⟩], rfl, by simp⟩

/-- Claim C4: `filter_new_jobs` returns exactly the postings whose URL is
not tracked, in input order; all-tracked gives the empty list and
none-tracked returns the input unchanged. -/
theorem c4_filter_new_jobs_exact :
    ∀ (jobs : List Posting) (tracked : List String),
      List.Sublist (filter_new_jobs jobs tracked) jobs ∧
      (∀ j, j ∈ filter_new_jobs jobs tracked ↔ j ∈ jobs ∧ j.job_url ∉ tracked) ∧
      ((∀ j ∈ jobs, j.job_url ∈ tracked) → filter_new_jobs jobs tracked = []) ∧
      ((∀ j ∈ jobs, j.job_url ∉ tracked) → filter_new_jobs jobs tracked = jobs) := by
  intro jobs tracked
  refine ⟨List.filter_sublist _, ?_, ?_, ?_⟩
  · intro j
    simp [filter_new_jobs, List.mem_filter, List.contains_iff_exists_mem_beq]
  · intro h
    rw [filter_new_jobs, List.filter_eq_nil_iff]
    intro j hj
    simp only [Bool.not_eq_true]
    rw [Bool.not_eq_false']
    exact List.contains_iff_exists_mem_beq.mpr ⟨j.job_url, h j hj, beq_self_eq_true _⟩
  · intro h
    rw [filter_new_jobs, List.filter_eq_self]
    intro j hj
    have him : ¬ (tracked.contains j.job_url = true) := by
      intro hc
      obtain ⟨x, hx, hbeq⟩ := List.contains_iff_exists_mem_beq.mp hc
      exact (h j hj) (beq_iff_eq.mp hbeq ▸ hx)
    rw [Bool.not_eq_true']
    exact Bool.eq_false_iff.mpr him

/-- Witness for C4 at concrete inputs. -/
theorem c4_filter_new_jobs_exact_witness :
    filter_new_jobs [⟨"u1", "A", "T", "x"⟩, ⟨"u2", "B", "S", "y"⟩] ["u1", "u2"] = [] ∧
    filter_new_jobs [⟨"u1", "A", "T", "x"⟩, ⟨"u2", "B", "S", "y"⟩] ["w"] =
      [⟨"u1", "A", "T", "x"⟩, ⟨"u2", "B", "S", "y"⟩] := by
  constructor
  · exact (c4_filter_new_jobs_exact _ _).2.2.1 (by decide)
  · exact (c4_filter_new_jobs_exact _ _).2.2.2 (by decide)

/-- Claim C5: `log_job_to_csv` is an upsert: an existing URL updates the
first matching row in place (no row added, so a second call for the same
URL never duplicates), an absent URL appends exactly one fully populated
record with the scrape timestamp defaulting to `now`. -/
theorem c5_log_job_to_csv_upsert :
    (∀ (job : Job) (u st rp cp nid now : String) (rows : List Row),
      job.job_url = some u → (∃ r ∈ rows, r.job_url = u) →
      (log_job_to_csv job st rp cp nid now rows).length = rows.length ∧
      ∃ pre r post, rows = pre ++ r :: post ∧ (∀ q ∈ pre, q.job_url ≠ u) ∧ r.job_url = u ∧
        log_job_to_csv job st rp cp nid now rows =
          pre ++ updatedRow r st rp cp nid :: post) ∧
    (∀ (job : Job) (st rp cp nid now : String) (rows : List Row),
      (∀ u, job.job_url = some u → ∀ r ∈ rows, r.job_url ≠ u) →
      log_job_to_csv job st rp cp nid now rows =
        rows ++ [newRowFor job st rp cp nid now]) ∧
    (∀ (job : Job) (u st rp cp nid now st' rp' cp' nid' now' : String) (rows : List Row),
      job.job_url = some u →
      (log_job_to_csv job st' rp' cp' nid' now'
          (log_job_to_csv job st rp cp nid now rows)).length =
        (log_job_to_csv job st rp cp nid now rows).length) := by
  refine ⟨?_, ?_, ?_⟩
  · intro job u st rp cp nid now rows hjob hex
    obtain ⟨r0, hr0mem, hr0url⟩ := hex
    have hany : rows.any (fun r => r.job_url == u) = true :=
      List.any_eq_true.mpr ⟨r0, hr0mem, beq_iff_eq.mpr hr0url⟩
    simp only [log_job_to_csv, hjob, hany, if_true]
    refine ⟨updateFirstRow_length u st rp cp nid rows, ?_⟩
    obtain ⟨pre, r, post, heq, hpre, hr⟩ := exists_first_match u rows hany
    refine ⟨pre, r, post, heq, hpre, hr, ?_⟩
    rw [heq, updateFirstRow_decomp u st rp cp nid pre r post hpre hr]
  · intro job st rp cp nid now rows habs
    cases hjob : job.job_url with
    | none => simp only [log_job_to_csv, hjob]
    | some u =>
      simp only [log_job_to_csv, hjob]
      rw [if_neg]
      intro hany
      obtain ⟨r, hrmem, hrbeq⟩ := List.any_eq_true.mp hany
      exact habs u hjob r hrmem (beq_iff_eq.mp hrbeq)
  · intro job u st rp cp nid now st' rp' cp' nid' now' rows hjob
    obtain ⟨r, hrmem, hrurl⟩ :=
      log_job_mem_url job u st rp cp nid now rows hjob
    set rows1 := log_job_to_csv job st rp cp nid now rows with hrows1
    have hany : rows1.any (fun r => r.job_url == u) = true :=
      List.any_eq_true.mpr ⟨r, hrmem, beq_iff_eq.mpr hrurl⟩
    simp only [log_job_to_csv, hjob, hany, if_true]
    exact updateFirstRow_length u st' rp' cp' nid' rows1

/-- Witness for C5 at concrete inputs: updating twice keeps one row, and a
fresh URL appends one populated row. -/
theorem c5_log_job_to_csv_upsert_witness :
    (log_job_to_csv ⟨some "u1", "T", "C", "L", "S", "D", some "SC"⟩ "Applied" "r" "c" "n" "N"
        (log_job_to_csv ⟨some "u1", "T", "C", "L", "S", "D", some "SC"⟩
          "Ready to Apply" "" "" "" "N" [])).length =
      (log_job_to_csv ⟨some "u1", "T", "C", "L", "S", "D", some "SC"⟩
        "Ready to Apply" "" "" "" "N" []).length ∧
    log_job_to_csv ⟨some "u2", "T", "C", "L", "S", "D", none⟩ "Ready to Apply" "" "" "" "N" [] =
      [newRowFor ⟨some "u2", "T", "C", "L", "S", "D", none⟩ "Ready to Apply" "" "" "" "N"] := by
  constructor
  · exact c5_log_job_to_csv_upsert.2.2 _ "u1" _ _ _ _ _ _ _ _ _ _ _ rfl
  · exact c5_log_job_to_csv_upsert.2.1 _ _ _ _ _ _ _ (by intro u hu r hr; simp at hr)

/-- Claim C6: `create_notion_page` is total over remote outcomes and
returns `none` on failure; `track_job` runs the remote sink first and then
always performs the local CSV upsert, so the local store is updated for
every invocation regardless of the remote outcome. -/
theorem c6_track_job_local_always :
    (∀ o : RemoteOutcome, create_notion_page o = none ∨ ∃ pid, create_notion_page o = some pid) ∧
    create_notion_page RemoteOutcome.failure = none ∧
    (∀ (o : RemoteOutcome) (job : Job) (st rp cp now : String) (rows : List Row),
      track_job o job st rp cp now rows =
        (create_notion_page o,
         log_job_to_csv job st rp cp ((create_notion_page o).getD "") now rows)) ∧
    (∀ (o : RemoteOutcome) (job : Job) (u st rp cp now : String) (rows : List Row),
      job.job_url = some u →
      ∃ r ∈ (track_job o job st rp cp now rows).2, r.job_url = u) := by
  refine ⟨?_, rfl, fun o job st rp cp now rows => rfl, ?_⟩
  · intro o
    cases o with
    | ok pid => exact Or.inr ⟨pid, rfl⟩
    | failure => exact Or.inl rfl
  · intro o job u st rp cp now rows hjob
    exact log_job_mem_url job u st rp cp ((create_notion_page o).getD "") now rows hjob

/-- Witness for C6: even with a failing remote sink the job's URL lands in
the local rows. -/
theorem c6_track_job_local_always_witness :
    create_notion_page RemoteOutcome.failure = none ∧
    ∃ r ∈ (track_job RemoteOutcome.failure ⟨some "u1", "T", "C", "L", "S", "D", none⟩
        "Ready to Apply" "" "" "N" []).2, r.job_url = "u1" := by
  exact ⟨c6_track_job_local_always.2.1,
    c6_track_job_local_always.2.2.2 RemoteOutcome.failure _ "u1" _ _ _ _ _ rfl⟩

/-- Claim C10: when the stored row for a URL has a non-empty
`notion_page_id` and the upsert is called with an empty one, the stored id
is kept, `status`, `resume_path` and `cover_letter_path` are overwritten
(even with empty values), and every other field and row is unchanged. -/
theorem c10_upsert_preserves_notion_id :
    ∀ (job : Job) (u st rp cp now : String) (rows pre post : List Row) (r : Row),
      job.job_url = some u → rows = pre ++ r :: post → (∀ q ∈ pre, q.job_url ≠ u) →
      r.job_url = u → r.notion_page_id ≠ "" →
      ∃ r', log_job_to_csv job st rp cp "" now rows = pre ++ r' :: post ∧
        r'.status = st ∧ r'.resume_path = rp ∧ r'.cover_letter_path = cp ∧
        r'.notion_page_id = r.notion_page_id ∧ r'.job_url = r.job_url ∧
        r'.title = r.title ∧ r'.company = r.company ∧ r'.location = r.location ∧
        r'.site = r.site ∧ r'.date_posted = r.date_posted ∧
        r'.scraped_at = r.scraped_at ∧ r'.applied_at = r.applied_at ∧ r'.notes = r.notes := by
  intro job u st rp cp now rows pre post r hjob hrows hpre hr hnid
  have hany : rows.any (fun q => q.job_url == u) = true :=
    List.any_eq_true.mpr ⟨r, by rw [hrows]; simp, beq_iff_eq.mpr hr⟩
  refine ⟨updatedRow r st rp cp "", ?_, ?_, ?_, ?_, ?_, ?_, ?_, ?_, ?_, ?_, ?_, ?_, ?_, ?_⟩
  · simp only [log_job_to_csv, hjob, hany, if_true]
    rw [hrows, updateFirstRow_decomp u st rp cp "" pre r post hpre hr]
  all_goals simp [updatedRow]

/-- Witness for C10 at a concrete store. -/
theorem c10_upsert_preserves_notion_id_witness :
    ∃ r', log_job_to_csv ⟨some "u1", "T", "C", "L", "S", "D", none⟩ "Applied" "" "" "" "N"
        [⟨"u1", "T", "C", "L", "S", "D", "SC", "", "New", "old_r", "old_c", "notion-1", "nn"⟩] =
      [] ++ r' :: [] ∧
      r'.status = "Applied" ∧ r'.resume_path = "" ∧ r'.cover_letter_path = "" ∧
      r'.notion_page_id =
        (⟨"u1", "T", "C", "L", "S", "D", "SC", "", "New", "old_r", "old_c", "notion-1", "nn"⟩ :
          Row).notion_page_id ∧
      r'.job_url = "u1" ∧ r'.title = "T" ∧ r'.company = "C" ∧ r'.location = "L" ∧
      r'.site = "S" ∧ r'.date_posted = "D" ∧ r'.scraped_at = "SC" ∧ r'.applied_at = "" ∧
      r'.notes = "nn" := by
  have h := c10_upsert_preserves_notion_id ⟨some "u1", "T", "C", "L", "S", "D", none⟩
    "u1" "Applied" "" "" "N"
    [⟨"u1", "T", "C", "L", "S", "D", "SC", "", "New", "old_r", "old_c", "notion-1", "nn"⟩]
    [] []
    ⟨"u1", "T", "C", "L", "S", "D", "SC", "", "New", "old_r", "old_c", "notion-1", "nn"⟩
    rfl rfl (by simp) rfl (by decide)
  exact h

/-- Counterexample to Claim C7 as stated: with the configured keyword list
`["Senior"]` the keyword appears case-insensitively in the posting text,
yet the matcher returns `false` — the code lowercases only the posting
text and compares the keyword verbatim, so the match is not insensitive to
the keyword's case. -/
theorem c7_keyword_case_counterexample :
    appearsCI "Senior".toList ("Senior dev".toList ++ ' ' :: ("".toList)) = true ∧
    anyKeywordIn ["Senior".toList] "Senior dev".toList "".toList = false := by
  decide

/-- Claim C7 (amended): the match lowercases the posting text only, so for
keyword lists whose entries are lowercase — as both configured lists are —
`is_senior`/`is_junior` return true exactly when some configured keyword
appears case-insensitively in the concatenation of title and description. -/
theorem c7_keyword_match_amended :
    (∀ kws : List (List Char), (∀ kw ∈ kws, lowerL kw = kw) →
      ∀ title description : List Char,
        (anyKeywordIn kws title description = true ↔
          ∃ kw ∈ kws, appearsCI kw (title ++ ' ' :: description) = true)) ∧
    (∀ title description : List Char,
      (is_senior_role title description = true ↔
        ∃ kw ∈ SENIOR_KEYWORDS, appearsCI kw (title ++ ' ' :: description) = true)) ∧
    (∀ title description : List Char,
      (is_junior_role title description = true ↔
        ∃ kw ∈ JUNIOR_KEYWORDS, appearsCI kw (title ++ ' ' :: description) = true)) := by
  have hgen : ∀ kws : List (List Char), (∀ kw ∈ kws, lowerL kw = kw) →
      ∀ title description : List Char,
        (anyKeywordIn kws title description = true ↔
          ∃ kw ∈ kws, appearsCI kw (title ++ ' ' :: description) = true) := by
    intro kws hlow title description
    rw [anyKeywordIn, List.any_eq_true]
    constructor
    · rintro ⟨kw, hkw, hc⟩
      refine ⟨kw, hkw, ?_⟩
      rw [appearsCI, hlow kw hkw]
      exact hc
    · rintro ⟨kw, hkw, hc⟩
      refine ⟨kw, hkw, ?_⟩
      rw [appearsCI, hlow kw hkw] at hc
      exact hc
  refine ⟨hgen, ?_, ?_⟩
  · intro title description
    exact hgen SENIOR_KEYWORDS (by decide) title description
  · intro title description
    exact hgen JUNIOR_KEYWORDS (by decide) title description

/-- Witness for the amended C7 at concrete inputs. -/
theorem c7_keyword_match_amended_witness :
    is_senior_role "Lead Engineer".toList "".toList = true ∧
    is_junior_role "dev".toList "great ENTRY level role".toList = true := by
  constructor
  · exact (c7_keyword_match_amended.2.1 _ _).mpr ⟨"lead".toList, by decide, by decide⟩
  · exact (c7_keyword_match_amended.2.2 _ _).mpr ⟨"entry".toList, by decide, by decide⟩

/-- Claim C8: the `tailor_resume` post-processing splits the response on
the first occurrence of the delimiter into a resume part and a report
part; an absent delimiter makes the whole response the resume part with
the fixed placeholder report; both parts are whitespace-trimmed. -/
theorem c8_tailor_resume_split_first :
    (∀ response : List Char, (¬ ∃ a b, response = a ++ (delimiterLit ++ b)) →
      tailor_resume_split response = (stripL response, placeholderReport)) ∧
    (∀ response pre post : List Char,
      response = pre ++ (delimiterLit ++ post) →
      (∀ a b, response = a ++ (delimiterLit ++ b) → pre.length ≤ a.length) →
      tailor_resume_split response = (stripL pre, stripL post)) ∧
    (∀ response : List Char,
      stripL (tailor_resume_split response).1 = (tailor_resume_split response).1 ∧
      stripL (tailor_resume_split response).2 = (tailor_resume_split response).2) := by
  refine ⟨?_, ?_, ?_⟩
  · intro response hno
    cases hsplit : splitFirst delimiterLit response with
    | none =>
      simp only [tailor_resume_split, hsplit]
      have hplaceholder : stripL placeholderReport = placeholderReport := by decide
      rw [hplaceholder]
    | some p =>
      exfalso
      obtain ⟨a0, b0⟩ := p
      exact hno ⟨a0, b0, (splitFirst_some hsplit).1⟩
  · intro response pre post heq hmin
    cases hsplit : splitFirst delimiterLit response with
    | none => exact absurd ⟨pre, post, heq⟩ (splitFirst_none hsplit)
    | some p =>
      obtain ⟨a0, b0⟩ := p
      obtain ⟨hdec, hamin⟩ := @splitFirst_some delimiterLit response a0 b0 hsplit
      have hlen : a0.length = pre.length :=
        le_antisymm (hamin pre post heq) (hmin a0 b0 hdec)
      have hinj := List.append_inj (hdec.symm.trans heq) hlen
      have hpre : a0 = pre := hinj.1
      have hpost : b0 = post := by
        have := List.append_inj hinj.2 (rfl : delimiterLit.length = delimiterLit.length)
        exact this.2
      simp only [tailor_resume_split, hsplit, hpre, hpost]
  · intro response
    cases hsplit : splitFirst delimiterLit response with
    | none =>
      simp only [tailor_resume_split, hsplit]
      exact ⟨stripL_idem _, stripL_idem _⟩
    | some p =>
      simp only [tailor_resume_split, hsplit]
      exact ⟨stripL_idem _, stripL_idem _⟩

/-- Witness for C8 at concrete responses, with and without delimiter. -/
theorem c8_tailor_resume_split_first_witness :
    tailor_resume_split "TEX ===KEYWORD_REPORT=== report".toList =
      (stripL "TEX ".toList, stripL " report".toList) ∧
    tailor_resume_split "no delimiter here".toList =
      (stripL "no delimiter here".toList, placeholderReport) := by
  constructor
  · exact c8_tailor_resume_split_first.2.1 "TEX ===KEYWORD_REPORT=== report".toList
      "TEX ".toList " report".toList (by decide)
      (splitFirst_some (by decide :
        splitFirst delimiterLit "TEX ===KEYWORD_REPORT=== report".toList =
          some ("TEX ".toList, " report".toList))).2
  · exact c8_tailor_resume_split_first.1 "no delimiter here".toList
      (splitFirst_none (by decide))

/-- Claim C9: `compile_latex_to_pdf` returns the empty string when the
input is missing, when either `pdflatex` run times out or the tool is
missing, or when no PDF is produced; when both runs complete it has
invoked the tool twice, and on success it deletes the existing
`.aux`/`.log`/`.out` files and returns the PDF path. -/
theorem c9_compile_latex_control_flow :
    (∀ (env : LatexEnv) (p : String), env.texExists = false →
      compile_latex_to_pdf env p = ⟨"", 0, []⟩) ∧
    (∀ (env : LatexEnv) (p : String), env.texExists = true →
      (env.run1 = RunOutcome.timedOut ∨ env.run1 = RunOutcome.toolMissing) →
      compile_latex_to_pdf env p = ⟨"", 1, []⟩) ∧
    (∀ (env : LatexEnv) (p : String) (rc : Int), env.texExists = true →
      env.run1 = RunOutcome.completed rc →
      (env.run2 = RunOutcome.timedOut ∨ env.run2 = RunOutcome.toolMissing) →
      compile_latex_to_pdf env p = ⟨"", 2, []⟩) ∧
    (∀ (env : LatexEnv) (p : String) (rc1 rc2 : Int), env.texExists = true →
      env.run1 = RunOutcome.completed rc1 → env.run2 = RunOutcome.completed rc2 →
      env.pdfProduced = false → compile_latex_to_pdf env p = ⟨"", 2, []⟩) ∧
    (∀ (env : LatexEnv) (p : String) (rc1 rc2 : Int), env.texExists = true →
      env.run1 = RunOutcome.completed rc1 → env.run2 = RunOutcome.completed rc2 →
      env.pdfProduced = true →
      compile_latex_to_pdf env p =
        ⟨pdfFor p, 2, [".aux", ".log", ".out"].filter (fun e => env.auxExists e)⟩) := by
  refine ⟨?_, ?_, ?_, ?_, ?_⟩
  · intro env p h
    simp [compile_latex_to_pdf, h]
  · intro env p h hrun
    rcases hrun with h1 | h1 <;> simp [compile_latex_to_pdf, h, h1]
  · intro env p rc h h1 hrun
    rcases hrun with h2 | h2 <;> simp [compile_latex_to_pdf, h, h1, h2]
  · intro env p rc1 rc2 h h1 h2 hpdf
    simp [compile_latex_to_pdf, h, h1, h2, hpdf]
  · intro env p rc1 rc2 h h1 h2 hpdf
    simp [compile_latex_to_pdf, h, h1, h2, hpdf]

/-- Witness for C9 over concrete environments. -/
theorem c9_compile_latex_control_flow_witness :
    compile_latex_to_pdf ⟨false, .completed 0, .completed 0, true, fun _ => true⟩ "a/b.tex" =
      ⟨"", 0, []⟩ ∧
    compile_latex_to_pdf ⟨true, .timedOut, .completed 0, true, fun _ => true⟩ "a/b.tex" =
      ⟨"", 1, []⟩ ∧
    compile_latex_to_pdf ⟨true, .completed 0, .toolMissing, true, fun _ => true⟩ "a/b.tex" =
      ⟨"", 2, []⟩ ∧
    compile_latex_to_pdf ⟨true, .completed 0, .completed 1, false, fun _ => true⟩ "a/b.tex" =
      ⟨"", 2, []⟩ ∧
    compile_latex_to_pdf ⟨true, .completed 0, .completed 0, true, fun _ => true⟩ "a/b.tex" =
      ⟨pdfFor "a/b.tex", 2,
        [".aux", ".log", ".out"].filter
          (fun e => (⟨true, .completed 0, .completed 0, true, fun _ => true⟩ : LatexEnv).auxExists
            e)⟩ := by
  refine ⟨?_, ?_, ?_, ?_, ?_⟩
  · exact c9_compile_latex_control_flow.1 _ _ rfl
  · exact c9_compile_latex_control_flow.2.1 _ _ rfl (Or.inl rfl)
  · exact c9_compile_latex_control_flow.2.2.1 _ _ 0 rfl rfl (Or.inr rfl)
  · exact c9_compile_latex_control_flow.2.2.2.1 _ _ 0 1 rfl rfl rfl rfl
  · exact c9_compile_latex_control_flow.2.2.2.2 _ _ 0 0 rfl rfl rfl rfl
